import Mathlib

/-!
# Verification of the tqdb sprite-sheet packer

A shallow embedding of `SpriteCreator.__init__` from `tqdb/utils/images.py`,
together with theorems settling the specification's claims about it.

The source groups loaded images by exact pixel size, greedily packs each group
left-to-right into fixed-width (768 px) canvases, stacks the sealed canvases
vertically into one sprite image, and emits one stylesheet rule per image.

Modelling notes:
* Images are records of filename, width and height; pixel data is irrelevant to
  the layout and is represented by which image is pasted where.
* The source's `css` list holds formatted stylesheet strings; we keep the
  structured placement record (`CssRule`) at each `css.append` site and provide
  `formatRule`, the exact textual rendering, separately.  The final
  `css.sort()` is modelled as sorting the formatted strings.
* A `Canvas` carries two bookkeeping fields next to its pastes: `base`, the
  value of `sprite_height` that the rules pasted onto it reference, and `recs`,
  the rules emitted for its pastes.  Both mirror data the source holds
  implicitly (via the `sprite_height` counter and the shared `css` list) and
  change nothing about the computation.
* The source's dictionary key is the string `f'{width}x{height}'`, which is in
  bijection with the pair `(width, height)` (decimal digits never contain `x`);
  we key by the pair directly.  The source sorts the key list by height and
  then looks each key up again; we sort the (key, group) entries by the key's
  height component, which is the same traversal since keys are unique.
* On empty input the source logs a warning and returns without producing a
  sprite or a stylesheet; the specification names this outcome
  `EmptyInputError`, and the embedding models the early return as that typed
  failure of an `Except`.
-/

/-- Maximum width of the sprite, `sprite_width = 768` in the source. -/
def sprite_width : Nat := 768

/-- Lexicographic `≤` on code-point lists: the order Python uses to compare
the filename strings in `images.sort(key=lambda x: x.filename)` and the
formatted rule strings in `css.sort()`. -/
def charListLe : List Char → List Char → Bool
  | [], _ => true
  | _ :: _, [] => false
  | a :: as, b :: bs => if a < b then true else if b < a then false else charListLe as bs

/-- String comparison as Python's `<=`: lexicographic on code points. -/
def strLe (a b : String) : Prop := charListLe a.data b.data = true

instance (a b : String) : Decidable (strLe a b) :=
  inferInstanceAs (Decidable (charListLe a.data b.data = true))

/-- A source image: stable identifier (the file's base name) plus pixel size. -/
structure Img where
  filename : String
  width : Nat
  height : Nat
deriving DecidableEq, Repr

/-- One emitted stylesheet rule (placement record): class name,
`background-position` offsets (horizontal, vertical), width and height.
The offsets are the negated pixel coordinates, as in the source. -/
structure CssRule where
  name : String
  bgx : Int
  bgy : Int
  width : Nat
  height : Nat
deriving DecidableEq, Repr

/-- The rule the source formats at each `css.append` site: horizontal offset
`0 - x`, vertical offset `0 - sprite_height`, plus the image's size.  (In the
overflow branch the source passes the literal `0`, which equals `0 - 0`.) -/
def mkRule (image : Img) (x : Nat) (sprite_height : Nat) : CssRule :=
  { name := image.filename
    bgx := 0 - (x : Int)
    bgy := 0 - (sprite_height : Int)
    width := image.width
    height := image.height }

/-- `'{v}px' if v != 0 else v` — nonzero offsets get a `px` suffix. -/
def pxInt (v : Int) : String :=
  if v ≠ 0 then toString v ++ "px" else toString v

/-- Same rendering for the (natural) width and height fields. -/
def pxNat (v : Nat) : String :=
  if v ≠ 0 then toString v ++ "px" else toString v

/-- The exact text of one stylesheet rule (the source's `sprite_css`
template instantiated per image). -/
def formatRule (r : CssRule) : String :=
  "." ++ r.name ++ " \x7b\n  background-position: " ++ pxInt r.bgx ++ " " ++
    pxInt r.bgy ++ ";\n  width: " ++ pxNat r.width ++ ";\n  height: " ++
    pxNat r.height ++ ";\n\x7d\n"

/-- One fixed-width canvas: its height (the group height it was created for),
its pastes `(image, x)`, and the bookkeeping fields described in the header
(`base`: the `sprite_height` its rules reference; `recs`: those rules). -/
structure Canvas where
  height : Nat
  base : Nat
  pastes : List (Img × Nat)
  recs : List CssRule
deriving DecidableEq, Repr

/-- The state threaded through the packing loops: the emitted rules, the
sealed canvases, and the running `sprite_height` counter. -/
structure PackSt where
  css : List CssRule
  canvases : List Canvas
  sprite_height : Nat
deriving DecidableEq, Repr

/-- The inner loop of the source: `for index, image in enumerate(images_map[key])`.
`group_len` is `len(images_map[key])` and `canvas_height` the group's height.
The three branches are, in order: strict fit (`x + w < 768`), exact fit
(`x + w == 768`, sealing the canvas when the image is the last of the group),
and overflow (seal, fresh canvas, place at 0 with the advanced counter). -/
def packImages (group_len canvas_height : Nat) :
    List Img → Nat → PackSt → Canvas → Nat → PackSt × Canvas × Nat
  | [], _, st, canvas, x => (st, canvas, x)
  | image :: rest, index, st, canvas, x =>
    if x + image.width < sprite_width then
      let rule := mkRule image x st.sprite_height
      packImages group_len canvas_height rest (index + 1)
        { st with css := st.css ++ [rule] }
        { canvas with pastes := canvas.pastes ++ [(image, x)],
                      recs := canvas.recs ++ [rule] }
        (x + image.width)
    else if x + image.width = sprite_width then
      let rule := mkRule image x st.sprite_height
      let canvas1 : Canvas :=
        { canvas with pastes := canvas.pastes ++ [(image, x)],
                      recs := canvas.recs ++ [rule] }
      if index = group_len - 1 then
        packImages group_len canvas_height rest (index + 1)
          { st with css := st.css ++ [rule],
                    canvases := st.canvases ++ [canvas1],
                    sprite_height := st.sprite_height + canvas_height }
          canvas1 x
      else
        packImages group_len canvas_height rest (index + 1)
          { st with css := st.css ++ [rule] } canvas1 (x + image.width)
    else
      let rule := mkRule image 0 (st.sprite_height + canvas_height)
      packImages group_len canvas_height rest (index + 1)
        { st with css := st.css ++ [rule],
                  canvases := st.canvases ++ [canvas],
                  sprite_height := st.sprite_height + canvas_height }
        { height := canvas_height, base := st.sprite_height + canvas_height,
          pastes := [(image, 0)], recs := [rule] }
        image.width

/-- One iteration of the outer `for key in sorted_keys` loop: fresh canvas of
the group's height, cursor at 0, the inner loop, then the trailing
`if x < sprite_width` seal. -/
def packGroup (st : PackSt) (key : Nat × Nat) (group : List Img) : PackSt :=
  let canvas_height := key.2
  let canvas : Canvas :=
    { height := canvas_height, base := st.sprite_height, pastes := [], recs := [] }
  let r := packImages group.length canvas_height group 0 st canvas 0
  let st1 := r.1
  let canvas1 := r.2.1
  let x1 := r.2.2
  if x1 < sprite_width then
    { st1 with canvases := st1.canvases ++ [canvas1],
               sprite_height := st1.sprite_height + canvas_height }
  else st1

/-- `images_map[key].append(image)` or `images_map[key] = [image]`: append the
image to the entry with its `(width, height)` key, or add a new entry at the
end (dictionary insertion order). -/
def images_map_add (m : List ((Nat × Nat) × List Img)) (image : Img) :
    List ((Nat × Nat) × List Img) :=
  match m with
  | [] => [((image.width, image.height), [image])]
  | (k, l) :: rest =>
    if k = (image.width, image.height) then (k, l ++ [image]) :: rest
    else (k, l) :: images_map_add rest image

/-- The size-keyed map built by the first loop over the (sorted) images. -/
def build_images_map (images : List Img) : List ((Nat × Nat) × List Img) :=
  images.foldl images_map_add []

/-- The final sprite image: fixed width, computed height, and the sealed
canvases pasted at their vertical positions. -/
structure Sprite where
  width : Nat
  height : Nat
  blits : List (Canvas × Nat)
deriving DecidableEq, Repr

/-- The compositor loop: paste each canvas at `(0, sprite_y)` and advance
`sprite_y` by the canvas height. -/
def paste_canvases : List Canvas → Nat → List (Canvas × Nat)
  | [], _ => []
  | canvas :: rest, sprite_y =>
    (canvas, sprite_y) :: paste_canvases rest (sprite_y + canvas.height)

/-- The failure outcomes of the packer.  The source's empty-input early return
(a warning is logged and neither sprite nor stylesheet is produced) is the
outcome the specification names `EmptyInputError`. -/
inductive SpriteError where
  | EmptyInputError
deriving DecidableEq, Repr

/-- Everything the packer produces: the placement records in emission order,
the sealed canvases in seal order, the composed sprite image, and the
stylesheet lines sorted for stable output (`css.sort()`). -/
structure SpriteResult where
  css : List CssRule
  canvases : List Canvas
  sprite_image : Sprite
  stylesheet : List String
deriving DecidableEq, Repr

/-- `images.sort(key=lambda x: x.filename)`: the input sorted by identifier. -/
def sortedImages (images0 : List Img) : List Img :=
  List.insertionSort (fun a b => strLe a.filename b.filename) images0

/-- The `(key, group)` entries of `images_map`, traversed in the order of
`sorted_keys` (a stable sort of the keys by their height component). -/
def sortedEntries (images0 : List Img) : List ((Nat × Nat) × List Img) :=
  List.insertionSort (fun a b => a.1.2 ≤ b.1.2) (build_images_map (sortedImages images0))

/-- The packing state after the outer loop over all groups. -/
def finalSt (images0 : List Img) : PackSt :=
  (sortedEntries images0).foldl (fun st e => packGroup st e.1 e.2) ⟨[], [], 0⟩

/-- The whole of `SpriteCreator.__init__` on an already-loaded image list:
empty check, identifier sort, size grouping, height-ordered group packing,
compositing, and the stylesheet sort (`css.sort()`). -/
def spriteCreate (images0 : List Img) : Except SpriteError SpriteResult :=
  if images0.length ≤ 0 then Except.error SpriteError.EmptyInputError
  else
    Except.ok
      { css := (finalSt images0).css
        canvases := (finalSt images0).canvases
        sprite_image :=
          { width := sprite_width, height := (finalSt images0).sprite_height,
            blits := paste_canvases (finalSt images0).canvases 0 }
        stylesheet := List.insertionSort strLe ((finalSt images0).css.map formatRule) }

/-- The packer's result, defaulting to the empty result on failure; projection
used to state properties of the successful outcome. -/
def resultOf (images : List Img) : SpriteResult :=
  match spriteCreate images with
  | Except.ok out => out
  | Except.error _ => ⟨[], [], ⟨sprite_width, 0, []⟩, []⟩

/-- Total height of a list of canvases. -/
def heightsSum (canvases : List Canvas) : Nat :=
  (canvases.map Canvas.height).sum

/-- A placement record's horizontal span `[x, x + width)` lies within
`[0, sprite_width)`: the offset is non-positive (so `x = |bgx|` is the pixel
coordinate) and the span ends at or before the sprite's right edge. -/
def SpanOk (r : CssRule) : Prop :=
  r.bgx ≤ 0 ∧ r.bgx.natAbs + r.width ≤ sprite_width

/-- Two placement records sharing a vertical offset have disjoint horizontal
spans. -/
def RowDisj (r1 r2 : CssRule) : Prop :=
  r1.bgy = r2.bgy →
    r1.bgx.natAbs + r1.width ≤ r2.bgx.natAbs ∨
    r2.bgx.natAbs + r2.width ≤ r1.bgx.natAbs

/-- The validity condition of the spec's §8: positive sizes and every width
strictly below the maximum. -/
def ValidImg (i : Img) : Prop :=
  0 < i.width ∧ i.width < sprite_width ∧ 0 < i.height

instance (i : Img) : Decidable (ValidImg i) :=
  inferInstanceAs (Decidable (0 < i.width ∧ i.width < sprite_width ∧ 0 < i.height))

/-- Invariant carried through the inner loop, between two image placements:
emitted rules have in-range disjoint spans; the css list splits into the rules
of earlier (more shallowly based) canvases and the working canvas's rules; the
working canvas's rules all reference its base and end at or before the
cursor. -/
structure InvMid (st : PackSt) (canvas : Canvas) (x : Nat) : Prop where
  css_span : ∀ r ∈ st.css, SpanOk r
  css_pair : st.css.Pairwise RowDisj
  split : ∃ prev, st.css = prev ++ canvas.recs ∧
    ∀ r ∈ prev, -(canvas.base : Int) < r.bgy
  recs_bgy : ∀ r ∈ canvas.recs, r.bgy = -(canvas.base : Int)
  recs_x : ∀ r ∈ canvas.recs, r.bgx.natAbs + r.width ≤ x
  base_le : canvas.base ≤ st.sprite_height

/-- What survives of the invariant when the inner loop exits (after an
exact-fit final seal the cursor no longer bounds the canvas's last span, and
`sprite_height` may exceed the base). -/
structure InvEnd (st : PackSt) (canvas : Canvas) (x : Nat) : Prop where
  css_span : ∀ r ∈ st.css, SpanOk r
  css_pair : st.css.Pairwise RowDisj
  split : ∃ prev, st.css = prev ++ canvas.recs ∧
    ∀ r ∈ prev, -(canvas.base : Int) < r.bgy
  recs_bgy : ∀ r ∈ canvas.recs, r.bgy = -(canvas.base : Int)
  base_le : canvas.base ≤ st.sprite_height
  x_lt : x < sprite_width

/-- Invariant holding between two groups: all emitted rules have in-range
disjoint spans, and all reference a counter value strictly below the current
`sprite_height`. -/
structure InvSealed (st : PackSt) : Prop where
  css_span : ∀ r ∈ st.css, SpanOk r
  css_pair : st.css.Pairwise RowDisj
  css_bgy : ∀ r ∈ st.css, -(st.sprite_height : Int) < r.bgy

/-- Property of every entry of `images_map`: a nonempty group whose members
all satisfy `P` and have exactly the key's size. -/
def MapProp (P : Img → Prop) (m : List ((Nat × Nat) × List Img)) : Prop :=
  ∀ e ∈ m, e.2 ≠ [] ∧ ∀ i ∈ e.2, P i ∧ (i.width, i.height) = e.1

/-- C3: on the empty input collection the packer fails with the typed error
`EmptyInputError` — the source's early return that produces neither an atlas
nor a placement list — and with no other outcome. -/
theorem spriteCreate_nil_emptyInputError :
    spriteCreate [] = Except.error SpriteError.EmptyInputError := rfl

/-- C1 (evaluation at the failing input): for images `a` 384×50, `b` 384×50,
`c` 10×50, the source seals the exactly-filled a/b canvas in the exact-fit
branch and then a second time in the trailing `if x < sprite_width` seal
(`x` is still 384), so three canvases are sealed, `c` receives vertical
offset `-100` (the claim's §8 scenario says `-50`), and the sprite is
150 px tall with the a/b canvas blitted twice. -/
theorem exactFitFinal_trailing_double_seal :
    (resultOf [⟨"a", 384, 50⟩, ⟨"b", 384, 50⟩, ⟨"c", 10, 50⟩]).css.map
        (fun r => (r.name, r.bgx, r.bgy)) =
      [("a", 0, 0), ("b", -384, 0), ("c", 0, -100)] ∧
    (resultOf [⟨"a", 384, 50⟩, ⟨"b", 384, 50⟩, ⟨"c", 10, 50⟩]).canvases.length = 3 ∧
    (resultOf [⟨"a", 384, 50⟩, ⟨"b", 384, 50⟩, ⟨"c", 10, 50⟩]).canvases.map
        (fun c => c.recs.map CssRule.name) = [["a", "b"], ["a", "b"], ["c"]] ∧
    (resultOf [⟨"a", 384, 50⟩, ⟨"b", 384, 50⟩, ⟨"c", 10, 50⟩]).sprite_image.height = 150 := by
  decide

/-- C2 (evaluation at the failing input): a single image of width 800 ≥ 768
raises no error at all; packing succeeds, a placement record for it is
emitted, and the one sealed canvas is empty (the start-of-group canvas sealed
by the overflow branch) — the image is silently mis-packed. -/
theorem oversized_image_packed_without_error :
    (spriteCreate [⟨"a", 800, 50⟩]).isOk = true ∧
    (resultOf [⟨"a", 800, 50⟩]).css.map (fun r => (r.name, r.bgx, r.bgy, r.width)) =
      [("a", 0, -50, 800)] ∧
    (resultOf [⟨"a", 800, 50⟩]).canvases.map (fun c => c.pastes.length) = [0] ∧
    (resultOf [⟨"a", 800, 50⟩]).sprite_image.height = 50 := by
  decide

/-- C7 (evaluation at the failing input): for images `a` 384×50 and `b`
384×50 the exactly-filled canvas is sealed twice, so the canvas at seal
position 1 is the very canvas at seal position 0 and its records carry the
same vertical offset `0` — not a strictly more negative one. -/
theorem duplicate_seal_breaks_strict_offset_monotonicity :
    (resultOf [⟨"a", 384, 50⟩, ⟨"b", 384, 50⟩]).canvases.length = 2 ∧
    (resultOf [⟨"a", 384, 50⟩, ⟨"b", 384, 50⟩]).canvases.map
        (fun c => c.recs.map CssRule.bgy) = [[0, 0], [0, 0]] ∧
    (resultOf [⟨"a", 384, 50⟩, ⟨"b", 384, 50⟩]).canvases[0]? =
      (resultOf [⟨"a", 384, 50⟩, ⟨"b", 384, 50⟩]).canvases[1]? := by
  decide

/-- C4: when an image exactly fills the current row (`x + width = 768`) and is
not the last of its group, the cursor is advanced by the image's width (the
comment in the source says "reset row" but the code adds the width back),
leaving it at exactly `sprite_width`; consequently, for every positive width
the next image can have, neither the strict-fit nor the exact-fit guard can
hold for it, so it falls into the overflow branch. -/
theorem exactFit_nonfinal_cursor_not_reset
    (group_len canvas_height index x : Nat) (st : PackSt) (canvas : Canvas)
    (image : Img) (rest : List Img)
    (hfit : x + image.width = sprite_width) (hlast : index ≠ group_len - 1) :
    (packImages group_len canvas_height (image :: rest) index st canvas x =
      packImages group_len canvas_height rest (index + 1)
        { st with css := st.css ++ [mkRule image x st.sprite_height] }
        { canvas with pastes := canvas.pastes ++ [(image, x)],
                      recs := canvas.recs ++ [mkRule image x st.sprite_height] }
        (x + image.width)) ∧
    x + image.width = sprite_width ∧
    (∀ image2 : Img, 0 < image2.width →
      ¬ ((x + image.width) + image2.width < sprite_width) ∧
      ¬ ((x + image.width) + image2.width = sprite_width)) := by
  refine ⟨?_, hfit, ?_⟩
  · have h1 : ¬ (x + image.width < sprite_width) := by omega
    rw [packImages, if_neg h1, if_pos hfit, if_neg hlast]
  · intro image2 h2
    constructor <;> omega

/-- C4 witness: the theorem at images `a`,`b` of width 384 in a group of two,
with `b` exactly filling the row at cursor 384 and a next width of 10. -/
theorem exactFit_nonfinal_cursor_not_reset_witness :
    (packImages 2 50 [⟨"b", 384, 50⟩] 0 ⟨[], [], 0⟩ ⟨50, 0, [], []⟩ 384 =
      packImages 2 50 [] 1
        { (⟨[], [], 0⟩ : PackSt) with
            css := [] ++ [mkRule ⟨"b", 384, 50⟩ 384 0] }
        { (⟨50, 0, [], []⟩ : Canvas) with
            pastes := [] ++ [(⟨"b", 384, 50⟩, 384)],
            recs := [] ++ [mkRule ⟨"b", 384, 50⟩ 384 0] }
        (384 + 384)) ∧
    384 + (Img.mk "b" 384 50).width = sprite_width ∧
    (∀ image2 : Img, 0 < image2.width →
      ¬ ((384 + (Img.mk "b" 384 50).width) + image2.width < sprite_width) ∧
      ¬ ((384 + (Img.mk "b" 384 50).width) + image2.width = sprite_width)) :=
  exactFit_nonfinal_cursor_not_reset 2 50 0 384 ⟨[], [], 0⟩ ⟨50, 0, [], []⟩
    ⟨"b", 384, 50⟩ [] (by decide) (by decide)

/-- C5: in the overflow branch (`x + width > 768`) the current canvas is
appended to the sealed list and `sprite_height` advanced by the canvas height
*before* the overflowing image's record is emitted, and that record carries
the already-advanced counter (`mkRule image 0 (st.sprite_height +
canvas_height)`); concretely, for `a` 700×50 and `b` 700×50 the records are
`a` at offsets (0, 0), `b` at (0, -50), and the sprite is 100 px tall. -/
theorem overflow_seals_before_placing
    (group_len canvas_height index x : Nat) (st : PackSt) (canvas : Canvas)
    (image : Img) (rest : List Img)
    (hover : sprite_width < x + image.width) :
    (packImages group_len canvas_height (image :: rest) index st canvas x =
      packImages group_len canvas_height rest (index + 1)
        { st with
            css := st.css ++ [mkRule image 0 (st.sprite_height + canvas_height)],
            canvases := st.canvases ++ [canvas],
            sprite_height := st.sprite_height + canvas_height }
        { height := canvas_height, base := st.sprite_height + canvas_height,
          pastes := [(image, 0)],
          recs := [mkRule image 0 (st.sprite_height + canvas_height)] }
        image.width) ∧
    (resultOf [⟨"a", 700, 50⟩, ⟨"b", 700, 50⟩]).css.map
        (fun r => (r.name, r.bgx, r.bgy)) = [("a", 0, 0), ("b", 0, -50)] ∧
    (resultOf [⟨"a", 700, 50⟩, ⟨"b", 700, 50⟩]).sprite_image.height = 100 := by
  refine ⟨?_, by decide, by decide⟩
  have h1 : ¬ (x + image.width < sprite_width) := by omega
  have h2 : ¬ (x + image.width = sprite_width) := by omega
  rw [packImages, if_neg h1, if_neg h2]

/-- C5 witness: the theorem at the overflow step of the 700×50 scenario
(`b` arriving at cursor 700). -/
theorem overflow_seals_before_placing_witness :
    (packImages 2 50 [⟨"b", 700, 50⟩] 1 ⟨[mkRule ⟨"a", 700, 50⟩ 0 0], [], 0⟩
        ⟨50, 0, [(⟨"a", 700, 50⟩, 0)], [mkRule ⟨"a", 700, 50⟩ 0 0]⟩ 700 =
      packImages 2 50 [] 2
        { (⟨[mkRule ⟨"a", 700, 50⟩ 0 0], [], 0⟩ : PackSt) with
            css := [mkRule ⟨"a", 700, 50⟩ 0 0] ++ [mkRule ⟨"b", 700, 50⟩ 0 (0 + 50)],
            canvases := [] ++
              [⟨50, 0, [(⟨"a", 700, 50⟩, 0)], [mkRule ⟨"a", 700, 50⟩ 0 0]⟩],
            sprite_height := 0 + 50 }
        { height := 50, base := 0 + 50,
          pastes := [(⟨"b", 700, 50⟩, 0)],
          recs := [mkRule ⟨"b", 700, 50⟩ 0 (0 + 50)] }
        (Img.mk "b" 700 50).width) ∧
    (resultOf [⟨"a", 700, 50⟩, ⟨"b", 700, 50⟩]).css.map
        (fun r => (r.name, r.bgx, r.bgy)) = [("a", 0, 0), ("b", 0, -50)] ∧
    (resultOf [⟨"a", 700, 50⟩, ⟨"b", 700, 50⟩]).sprite_image.height = 100 :=
  overflow_seals_before_placing 2 50 1 700 ⟨[mkRule ⟨"a", 700, 50⟩ 0 0], [], 0⟩
    ⟨50, 0, [(⟨"a", 700, 50⟩, 0)], [mkRule ⟨"a", 700, 50⟩ 0 0]⟩
    ⟨"b", 700, 50⟩ [] (by decide)

/-- Appending one canvas adds its height to the total. -/
theorem heightsSum_append (l : List Canvas) (c : Canvas) :
    heightsSum (l ++ [c]) = heightsSum l + c.height := by
  simp [heightsSum]

/-- On a nonempty input the packer succeeds, returning `resultOf`. -/
theorem spriteCreate_ok (images : List Img) (h : images ≠ []) :
    spriteCreate images = Except.ok (resultOf images) := by
  have hlen : ¬ (images.length ≤ 0) := by
    cases images with
    | nil => exact absurd rfl h
    | cons a l => simp
  unfold resultOf spriteCreate
  rw [if_neg hlen]

/-- The components of a successful result, by unfolding the pipeline. -/
theorem resultOf_eq (images : List Img) (h : images ≠ []) :
    resultOf images =
      { css := (finalSt images).css
        canvases := (finalSt images).canvases
        sprite_image :=
          { width := sprite_width, height := (finalSt images).sprite_height,
            blits := paste_canvases (finalSt images).canvases 0 }
        stylesheet := List.insertionSort strLe ((finalSt images).css.map formatRule) } := by
  have hlen : ¬ (images.length ≤ 0) := by
    cases images with
    | nil => exact absurd rfl h
    | cons a l => simp
  unfold resultOf spriteCreate
  rw [if_neg hlen]

/-- Every seal site adds exactly the sealed canvas's height to
`sprite_height`, so the counter stays equal to the total sealed height
through the inner loop; the working canvas keeps the group height. -/
theorem packImages_heights (group_len canvas_height : Nat) (images : List Img) :
    ∀ (index : Nat) (st : PackSt) (canvas : Canvas) (x : Nat),
      canvas.height = canvas_height →
      st.sprite_height = heightsSum st.canvases →
      (packImages group_len canvas_height images index st canvas x).1.sprite_height =
        heightsSum (packImages group_len canvas_height images index st canvas x).1.canvases ∧
      (packImages group_len canvas_height images index st canvas x).2.1.height =
        canvas_height := by
  induction images with
  | nil =>
    intro index st canvas x hch hsum
    exact ⟨hsum, hch⟩
  | cons image rest ih =>
    intro index st canvas x hch hsum
    rw [packImages]
    by_cases h1 : x + image.width < sprite_width
    · rw [if_pos h1]
      exact ih _ _ _ _ hch hsum
    · rw [if_neg h1]
      by_cases h2 : x + image.width = sprite_width
      · rw [if_pos h2]
        by_cases h3 : index = group_len - 1
        · rw [if_pos h3]
          refine ih _ _ _ _ hch ?_
          show st.sprite_height + canvas_height =
            heightsSum (st.canvases ++
              [{ canvas with pastes := canvas.pastes ++ [(image, x)],
                             recs := canvas.recs ++ [mkRule image x st.sprite_height] }])
          rw [heightsSum_append, ← hsum]
          show st.sprite_height + canvas_height = st.sprite_height + canvas.height
          rw [hch]
        · rw [if_neg h3]
          exact ih _ _ _ _ hch hsum
      · rw [if_neg h2]
        refine ih _ _ _ _ rfl ?_
        show st.sprite_height + canvas_height = heightsSum (st.canvases ++ [canvas])
        rw [heightsSum_append, ← hsum, hch]

/-- The per-group step (inner loop plus trailing seal) preserves the equality
of `sprite_height` with the total sealed height. -/
theorem packGroup_heights (st : PackSt) (key : Nat × Nat) (group : List Img)
    (hsum : st.sprite_height = heightsSum st.canvases) :
    (packGroup st key group).sprite_height =
      heightsSum (packGroup st key group).canvases := by
  have h := packImages_heights group.length key.2 group 0 st
    ⟨key.2, st.sprite_height, [], []⟩ 0 rfl hsum
  rw [packGroup]
  by_cases hx :
      (packImages group.length key.2 group 0 st ⟨key.2, st.sprite_height, [], []⟩ 0).2.2 <
        sprite_width
  · rw [if_pos hx]
    show _ + key.2 = heightsSum (_ ++ [_])
    rw [heightsSum_append, h.1, h.2]
  · rw [if_neg hx]
    exact h.1

/-- The equality holds after folding over all groups. -/
theorem foldl_packGroup_heights (entries : List ((Nat × Nat) × List Img)) :
    ∀ st : PackSt, st.sprite_height = heightsSum st.canvases →
      (entries.foldl (fun st e => packGroup st e.1 e.2) st).sprite_height =
        heightsSum ((entries.foldl (fun st e => packGroup st e.1 e.2) st).canvases) := by
  induction entries with
  | nil => intro st h; exact h
  | cons e rest ih => intro st h; exact ih _ (packGroup_heights _ _ _ h)

/-- The compositor pastes canvas `i` at the cumulative height of the canvases
before it: closed form of the `sprite_y` fold. -/
theorem paste_canvases_get? :
    ∀ (l : List Canvas) (y i : Nat),
      (paste_canvases l y)[i]? =
        l[i]?.map (fun c => (c, y + heightsSum (l.take i))) := by
  intro l
  induction l with
  | nil => intro y i; simp [paste_canvases]
  | cons c rest ih =>
    intro y i
    cases i with
    | zero => simp [paste_canvases, heightsSum]
    | succ n =>
      simp only [paste_canvases, List.getElem?_cons_succ, List.take_succ_cons, ih]
      simp [heightsSum, Nat.add_assoc]

/-- C9: for every (nonempty) input, packing succeeds, the sprite is
`sprite_width` wide, its height equals exactly the sum of the heights of all
sealed canvases, and the compositor blits the canvas at seal position `i` at a
vertical offset equal to the cumulative height of the canvases sealed before
it, in seal order. -/
theorem sprite_height_eq_sum_and_blit_offsets (images : List Img)
    (h : images ≠ []) :
    (spriteCreate images).isOk = true ∧
    (resultOf images).sprite_image.width = sprite_width ∧
    (resultOf images).sprite_image.height = heightsSum (resultOf images).canvases ∧
    ∀ i : Nat,
      (resultOf images).sprite_image.blits[i]? =
        (resultOf images).canvases[i]?.map
          (fun c => (c, heightsSum ((resultOf images).canvases.take i))) := by
  have hsum : (finalSt images).sprite_height = heightsSum (finalSt images).canvases :=
    foldl_packGroup_heights _ _ rfl
  rw [resultOf_eq images h, spriteCreate_ok images h]
  refine ⟨rfl, rfl, hsum, ?_⟩
  intro i
  show (paste_canvases (finalSt images).canvases 0)[i]? = _
  rw [paste_canvases_get?]
  simp

/-- C9 witness: the theorem at the single-image input `a` 100×50. -/
theorem sprite_height_eq_sum_and_blit_offsets_witness :
    (spriteCreate [⟨"a", 100, 50⟩]).isOk = true ∧
    (resultOf [⟨"a", 100, 50⟩]).sprite_image.width = sprite_width ∧
    (resultOf [⟨"a", 100, 50⟩]).sprite_image.height =
      heightsSum (resultOf [⟨"a", 100, 50⟩]).canvases ∧
    ∀ i : Nat,
      (resultOf [⟨"a", 100, 50⟩]).sprite_image.blits[i]? =
        (resultOf [⟨"a", 100, 50⟩]).canvases[i]?.map
          (fun c => (c, heightsSum ((resultOf [⟨"a", 100, 50⟩]).canvases.take i))) :=
  sprite_height_eq_sum_and_blit_offsets [⟨"a", 100, 50⟩] (by decide)

/-- Inner-loop induction for C10: while the images before the oversized last
one are processed (their index can never equal `group_len - 1`), no paste of
an image named `lastname` enters the sealed list or the working canvas, and
once `last` itself arrives it takes the overflow branch, leaving the cursor at
`last.width` and its rule in the css list, with its canvas still unsealed. -/
theorem packImages_oversized_last (group_len canvas_height : Nat) (last : Img)
    (hw : sprite_width ≤ last.width) :
    ∀ (imgs : List Img) (index : Nat) (st : PackSt) (canvas : Canvas) (x : Nat),
      index + (imgs.length + 1) = group_len →
      (∀ i ∈ imgs, 0 < i.width) →
      (∀ i ∈ imgs, i.filename ≠ last.filename) →
      (∀ c ∈ st.canvases, ∀ p ∈ c.pastes, p.1.filename ≠ last.filename) →
      (∀ p ∈ canvas.pastes, p.1.filename ≠ last.filename) →
      (sprite_width < x + last.width ∨ imgs ≠ []) →
      (∀ c ∈ (packImages group_len canvas_height (imgs ++ [last]) index st canvas x).1.canvases,
          ∀ p ∈ c.pastes, p.1.filename ≠ last.filename) ∧
      (packImages group_len canvas_height (imgs ++ [last]) index st canvas x).2.2 =
        last.width ∧
      (∃ r ∈ (packImages group_len canvas_height (imgs ++ [last]) index st canvas x).1.css,
          r.name = last.filename ∧ r.width = last.width) := by
  intro imgs
  induction imgs with
  | nil =>
    intro index st canvas x hlen hpos hnames hst hcv hx
    have hover : sprite_width < x + last.width := by
      rcases hx with h | h
      · exact h
      · exact absurd rfl h
    have h1 : ¬ (x + last.width < sprite_width) := by omega
    have h2 : ¬ (x + last.width = sprite_width) := by omega
    rw [List.nil_append, packImages, if_neg h1, if_neg h2]
    refine ⟨?_, rfl, ?_⟩
    · intro c hc p hp
      rcases List.mem_append.mp hc with hc | hc
      · exact hst c hc p hp
      · rcases List.mem_singleton.mp hc with rfl
        exact hcv p hp
    · exact ⟨mkRule last 0 (st.sprite_height + canvas_height),
        List.mem_append_right _ (List.mem_singleton.mpr rfl), rfl, rfl⟩
  | cons image rest ih =>
    intro index st canvas x hlen hpos hnames hst hcv hx
    have hpos' : ∀ i ∈ rest, 0 < i.width := fun i hi => hpos i (List.mem_cons_of_mem _ hi)
    have hnames' : ∀ i ∈ rest, i.filename ≠ last.filename :=
      fun i hi => hnames i (List.mem_cons_of_mem _ hi)
    have hposh : 0 < image.width := hpos image (List.mem_cons_self _ _)
    have hnh : image.filename ≠ last.filename := hnames image (List.mem_cons_self _ _)
    have hlen' : (index + 1) + (rest.length + 1) = group_len := by
      simp at hlen; omega
    have hnotlast : index ≠ group_len - 1 := by omega
    have hcv' : ∀ p ∈ canvas.pastes ++ [(image, x)], p.1.filename ≠ last.filename := by
      intro p hp
      rcases List.mem_append.mp hp with hp | hp
      · exact hcv p hp
      · rcases List.mem_singleton.mp hp with rfl
        exact hnh
    rw [List.cons_append, packImages]
    by_cases h1 : x + image.width < sprite_width
    · rw [if_pos h1]
      refine ih (index + 1) _ _ (x + image.width) hlen' hpos' hnames' hst hcv' ?_
      rcases List.eq_nil_or_concat rest with rfl | _
      · left; omega
      · cases rest with
        | nil => left; omega
        | cons a l => right; simp
    · rw [if_neg h1]
      by_cases h2 : x + image.width = sprite_width
      · rw [if_pos h2, if_neg hnotlast]
        refine ih (index + 1) _ _ (x + image.width) hlen' hpos' hnames' hst hcv' ?_
        left; omega
      · rw [if_neg h2]
        refine ih (index + 1) _ _ image.width hlen' hpos' hnames' ?_ ?_ ?_
        · intro c hc p hp
          rcases List.mem_append.mp hc with hc | hc
          · exact hst c hc p hp
          · rcases List.mem_singleton.mp hc with rfl
            exact hcv p hp
        · intro p hp
          rcases List.mem_singleton.mp hp with rfl
          exact hnh
        · left; omega

/-- C10: a group whose last image is placed via the overflow branch with
width ≥ `sprite_width` (in particular any image wider than the sprite ending
its own group) leaves the cursor at `last.width`, so the end-of-group seal
guard `x < sprite_width` is false: the canvas holding that image is never
appended to the sealed list — no sealed canvas carries a paste of it, hence
its pixels never reach the atlas — even though its placement record is
emitted into the css list. -/
theorem oversized_final_image_canvas_dropped
    (st : PackSt) (key : Nat × Nat) (imgs : List Img) (last : Img)
    (hw : sprite_width ≤ last.width)
    (hover : imgs = [] → sprite_width < last.width)
    (hpos : ∀ i ∈ imgs, 0 < i.width)
    (hnames : ∀ i ∈ imgs, i.filename ≠ last.filename)
    (hst : ∀ c ∈ st.canvases, ∀ p ∈ c.pastes, p.1.filename ≠ last.filename) :
    ¬ ((packImages (imgs ++ [last]).length key.2 (imgs ++ [last]) 0 st
          ⟨key.2, st.sprite_height, [], []⟩ 0).2.2 < sprite_width) ∧
    (∀ c ∈ (packGroup st key (imgs ++ [last])).canvases,
        ∀ p ∈ c.pastes, p.1.filename ≠ last.filename) ∧
    (∃ r ∈ (packGroup st key (imgs ++ [last])).css,
        r.name = last.filename ∧ r.width = last.width) := by
  have hlen : (0 : Nat) + (imgs.length + 1) = (imgs ++ [last]).length := by simp
  have hx : sprite_width < 0 + last.width ∨ imgs ≠ [] := by
    cases imgs with
    | nil => left; have := hover rfl; omega
    | cons a l => right; simp
  have h := packImages_oversized_last (imgs ++ [last]).length key.2 last hw imgs 0 st
    ⟨key.2, st.sprite_height, [], []⟩ 0 hlen hpos hnames hst (by intro p hp; cases hp) hx
  have hxcur : ¬ ((packImages (imgs ++ [last]).length key.2 (imgs ++ [last]) 0 st
      ⟨key.2, st.sprite_height, [], []⟩ 0).2.2 < sprite_width) := by
    rw [h.2.1]; omega
  refine ⟨hxcur, ?_, ?_⟩
  · rw [packGroup]
    rw [if_neg hxcur]
    exact h.1
  · rw [packGroup]
    rw [if_neg hxcur]
    exact h.2.2

/-- C10 witness: one group of `a` 100×50 followed by the 800-wide `z`. -/
theorem oversized_final_image_canvas_dropped_witness :
    ¬ ((packImages 2 50 [⟨"a", 100, 50⟩, ⟨"z", 800, 50⟩] 0 ⟨[], [], 0⟩
          ⟨50, 0, [], []⟩ 0).2.2 < sprite_width) ∧
    (∀ c ∈ (packGroup ⟨[], [], 0⟩ ⟨100, 50⟩ [⟨"a", 100, 50⟩, ⟨"z", 800, 50⟩]).canvases,
        ∀ p ∈ c.pastes, p.1.filename ≠ "z") ∧
    (∃ r ∈ (packGroup ⟨[], [], 0⟩ ⟨100, 50⟩ [⟨"a", 100, 50⟩, ⟨"z", 800, 50⟩]).css,
        r.name = "z" ∧ r.width = 800) :=
  oversized_final_image_canvas_dropped ⟨[], [], 0⟩ ⟨100, 50⟩ [⟨"a", 100, 50⟩]
    ⟨"z", 800, 50⟩ (by decide) (by intro h; cases h) (by decide)
    (by decide) (by intro c hc; cases hc)

/-- Placing an image at the cursor (the strict-fit and exact-fit paste, rule
emission and bookkeeping) preserves the mid-loop invariant, with the cursor
moved past the image. -/
theorem InvMid_place (st : PackSt) (canvas : Canvas) (x : Nat) (image : Img)
    (hbase : st.sprite_height = canvas.base)
    (hinv : InvMid st canvas x)
    (hxw : x + image.width ≤ sprite_width) :
    InvMid { st with css := st.css ++ [mkRule image x st.sprite_height] }
      { canvas with pastes := canvas.pastes ++ [(image, x)],
                    recs := canvas.recs ++ [mkRule image x st.sprite_height] }
      (x + image.width) := by
  obtain ⟨prev, hsplit, hprev⟩ := hinv.split
  have habs : (mkRule image x st.sprite_height).bgx.natAbs = x := by
    simp [mkRule]
  have hbgy : (mkRule image x st.sprite_height).bgy = -(canvas.base : Int) := by
    simp [mkRule, hbase]
  constructor
  · intro r hr
    rcases List.mem_append.mp hr with hr | hr
    · exact hinv.css_span r hr
    · rcases List.mem_singleton.mp hr with rfl
      exact ⟨by simp [mkRule], by rw [habs]; exact hxw⟩
  · rw [List.pairwise_append]
    refine ⟨hinv.css_pair, List.pairwise_singleton _ _, ?_⟩
    intro r hr r' hr'
    rcases List.mem_singleton.mp hr' with rfl
    rw [hsplit] at hr
    intro hbgyEq
    rcases List.mem_append.mp hr with hr | hr
    · exfalso
      have h1 := hprev r hr
      rw [hbgyEq, hbgy] at h1
      exact lt_irrefl _ h1
    · left
      rw [habs]
      exact hinv.recs_x r hr
  · exact ⟨prev, by rw [hsplit, List.append_assoc], hprev⟩
  · intro r hr
    rcases List.mem_append.mp hr with hr | hr
    · exact hinv.recs_bgy r hr
    · rcases List.mem_singleton.mp hr with rfl
      exact hbgy
  · intro r hr
    rcases List.mem_append.mp hr with hr | hr
    · have := hinv.recs_x r hr
      omega
    · rcases List.mem_singleton.mp hr with rfl
      rw [habs]
      exact le_rfl
  · exact hinv.base_le

/-- The overflow step (seal the working canvas, advance the counter, start a
fresh canvas holding the image at 0) re-establishes the mid-loop invariant on
the fresh canvas. -/
theorem InvMid_overflow (st : PackSt) (canvas : Canvas) (x : Nat) (image : Img)
    (canvas_height : Nat) (hch : 0 < canvas_height)
    (hbase : st.sprite_height = canvas.base)
    (hinv : InvMid st canvas x)
    (hw : image.width ≤ sprite_width) :
    InvMid
      { st with css := st.css ++ [mkRule image 0 (st.sprite_height + canvas_height)],
                canvases := st.canvases ++ [canvas],
                sprite_height := st.sprite_height + canvas_height }
      { height := canvas_height, base := st.sprite_height + canvas_height,
        pastes := [(image, 0)],
        recs := [mkRule image 0 (st.sprite_height + canvas_height)] }
      image.width := by
  obtain ⟨prev, hsplit, hprev⟩ := hinv.split
  have hbgyC : (mkRule image 0 (st.sprite_height + canvas_height)).bgy =
      -((st.sprite_height + canvas_height : Nat) : Int) := by
    simp [mkRule]
  constructor
  · intro r hr
    rcases List.mem_append.mp hr with hr | hr
    · exact hinv.css_span r hr
    · rcases List.mem_singleton.mp hr with rfl
      exact ⟨by simp [mkRule], by simpa [mkRule] using hw⟩
  · rw [List.pairwise_append]
    refine ⟨hinv.css_pair, List.pairwise_singleton _ _, ?_⟩
    intro r hr r' hr'
    rcases List.mem_singleton.mp hr' with rfl
    rw [hsplit] at hr
    intro hbgyEq
    exfalso
    rw [hbgyC] at hbgyEq
    rcases List.mem_append.mp hr with hr | hr
    · have h1 := hprev r hr
      rw [← hbase] at h1
      omega
    · have h1 := hinv.recs_bgy r hr
      rw [← hbase] at h1
      omega
  · refine ⟨st.css, rfl, ?_⟩
    intro r hr
    show -((st.sprite_height + canvas_height : Nat) : Int) < r.bgy
    rw [hsplit] at hr
    rcases List.mem_append.mp hr with hr | hr
    · have h1 := hprev r hr
      rw [← hbase] at h1
      omega
    · have h1 := hinv.recs_bgy r hr
      rw [← hbase] at h1
      omega
  · intro r hr
    rcases List.mem_singleton.mp hr with rfl
    exact hbgyC
  · intro r hr
    rcases List.mem_singleton.mp hr with rfl
    simp [mkRule]
  · exact le_rfl

/-- The inner loop maintains the invariants: entering any suffix of the group
with a consistent index, a cursor at or below the edge (strictly below if the
suffix is empty), and the counter equal to the working canvas's base, it exits
with the end-of-loop invariant — in particular with the cursor strictly
inside the sprite width. -/
theorem packImages_inv (group_len canvas_height : Nat) (hch : 0 < canvas_height) :
    ∀ (images : List Img) (index : Nat) (st : PackSt) (canvas : Canvas) (x : Nat),
      index + images.length = group_len →
      (∀ i ∈ images, 0 < i.width ∧ i.width < sprite_width) →
      x ≤ sprite_width →
      (images = [] → x < sprite_width) →
      st.sprite_height = canvas.base →
      InvMid st canvas x →
      InvEnd (packImages group_len canvas_height images index st canvas x).1
        (packImages group_len canvas_height images index st canvas x).2.1
        (packImages group_len canvas_height images index st canvas x).2.2 := by
  intro images
  induction images with
  | nil =>
    intro index st canvas x hlen hval hxle hxlt hbase hinv
    exact ⟨hinv.css_span, hinv.css_pair, hinv.split, hinv.recs_bgy,
      le_of_eq hbase.symm, hxlt rfl⟩
  | cons image rest ih =>
    intro index st canvas x hlen hval hxle hxlt hbase hinv
    have hvimg := hval image (List.mem_cons_self _ _)
    have hval' : ∀ i ∈ rest, 0 < i.width ∧ i.width < sprite_width :=
      fun i hi => hval i (List.mem_cons_of_mem _ hi)
    have hlen' : (index + 1) + rest.length = group_len := by
      simp only [List.length_cons] at hlen
      omega
    rw [packImages]
    by_cases h1 : x + image.width < sprite_width
    · rw [if_pos h1]
      exact ih (index + 1) _ _ _ hlen' hval' (by omega) (fun _ => h1) hbase
        (InvMid_place st canvas x image hbase hinv (by omega))
    · rw [if_neg h1]
      by_cases h2 : x + image.width = sprite_width
      · rw [if_pos h2]
        by_cases h3 : index = group_len - 1
        · rw [if_pos h3]
          have hrest : rest = [] := by
            cases rest with
            | nil => rfl
            | cons a l =>
              exfalso
              simp only [List.length_cons] at hlen
              omega
          subst hrest
          have hmid := InvMid_place st canvas x image hbase hinv (le_of_eq h2)
          have hx_lt : x < sprite_width := by
            have := hvimg.1
            omega
          have hble : canvas.base ≤ st.sprite_height + canvas_height := by
            omega
          exact ⟨hmid.css_span, hmid.css_pair, hmid.split, hmid.recs_bgy, hble, hx_lt⟩
        · rw [if_neg h3]
          have hrest : rest ≠ [] := by
            cases rest with
            | nil =>
              exfalso
              simp only [List.length_cons, List.length_nil] at hlen
              omega
            | cons a l => simp
          exact ih (index + 1) _ _ _ hlen' hval' (by omega)
            (fun hr => absurd hr hrest) hbase
            (InvMid_place st canvas x image hbase hinv (le_of_eq h2))
      · rw [if_neg h2]
        exact ih (index + 1) _ _ _ hlen' hval' (by omega) (fun _ => hvimg.2) rfl
          (InvMid_overflow st canvas x image canvas_height hch hbase hinv (by omega))

/-- One whole group step preserves the between-groups invariant. -/
theorem packGroup_inv (st : PackSt) (key : Nat × Nat) (group : List Img)
    (hval : ∀ i ∈ group, 0 < i.width ∧ i.width < sprite_width)
    (hch : 0 < key.2) (hinv : InvSealed st) :
    InvSealed (packGroup st key group) := by
  have hmid : InvMid st ⟨key.2, st.sprite_height, [], []⟩ 0 := by
    refine ⟨hinv.css_span, hinv.css_pair,
      ⟨st.css, (List.append_nil _).symm, ?_⟩, ?_, ?_, le_refl _⟩
    · intro r hr
      exact hinv.css_bgy r hr
    · intro r hr
      cases hr
    · intro r hr
      cases hr
  have hend := packImages_inv group.length key.2 hch group 0 st
    ⟨key.2, st.sprite_height, [], []⟩ 0 (by simp) hval (by decide)
    (fun _ => by decide) rfl hmid
  obtain ⟨prev, hsplit, hprev⟩ := hend.split
  have hbase := hend.base_le
  rw [packGroup, if_pos hend.x_lt]
  refine ⟨hend.css_span, hend.css_pair, ?_⟩
  intro r hr
  show -(((packImages group.length key.2 group 0 st
      ⟨key.2, st.sprite_height, [], []⟩ 0).1.sprite_height + key.2 : Nat) : Int) < r.bgy
  rw [hsplit] at hr
  rcases List.mem_append.mp hr with hr | hr
  · have h1 := hprev r hr
    omega
  · have h1 := hend.recs_bgy r hr
    omega

/-- The between-groups invariant holds after the whole outer loop. -/
theorem foldl_packGroup_inv :
    ∀ (entries : List ((Nat × Nat) × List Img)) (st : PackSt),
      InvSealed st →
      (∀ e ∈ entries, (∀ i ∈ e.2, 0 < i.width ∧ i.width < sprite_width) ∧ 0 < e.1.2) →
      InvSealed (entries.foldl (fun st e => packGroup st e.1 e.2) st) := by
  intro entries
  induction entries with
  | nil =>
    intro st h _
    exact h
  | cons e rest ih =>
    intro st h hall
    have he := hall e (List.mem_cons_self _ _)
    exact ih _ (packGroup_inv st e.1 e.2 he.1 he.2 h)
      (fun e' he' => hall e' (List.mem_cons_of_mem _ he'))

/-- Adding one image to the size map preserves `MapProp`. -/
theorem mapProp_add (P : Img → Prop) (image : Img) (hP : P image) :
    ∀ m, MapProp P m → MapProp P (images_map_add m image) := by
  intro m
  induction m with
  | nil =>
    intro _ e he
    rw [images_map_add] at he
    rcases List.mem_singleton.mp he with rfl
    refine ⟨by simp, ?_⟩
    intro i hi
    rcases List.mem_singleton.mp hi with rfl
    exact ⟨hP, rfl⟩
  | cons kl rest ih =>
    intro hm e he
    obtain ⟨k, l⟩ := kl
    rw [images_map_add] at he
    by_cases hk : k = (image.width, image.height)
    · rw [if_pos hk] at he
      rcases List.mem_cons.mp he with rfl | he
      · have hh := hm (k, l) (List.mem_cons_self _ _)
        refine ⟨by simp, ?_⟩
        intro i hi
        rcases List.mem_append.mp hi with hi | hi
        · exact hh.2 i hi
        · rcases List.mem_singleton.mp hi with rfl
          exact ⟨hP, hk.symm⟩
      · exact hm e (List.mem_cons_of_mem _ he)
    · rw [if_neg hk] at he
      rcases List.mem_cons.mp he with rfl | he
      · exact hm (k, l) (List.mem_cons_self _ _)
      · exact ih (fun e' he' => hm e' (List.mem_cons_of_mem _ he')) e he

/-- `MapProp` holds of the size map built from any list of `P`-images. -/
theorem build_images_map_prop (P : Img → Prop) :
    ∀ (images : List Img) (m : List ((Nat × Nat) × List Img)),
      MapProp P m → (∀ i ∈ images, P i) →
      MapProp P (images.foldl images_map_add m) := by
  intro images
  induction images with
  | nil =>
    intro m hm _
    exact hm
  | cons i rest ih =>
    intro m hm hl
    exact ih _ (mapProp_add P i (hl i (List.mem_cons_self _ _)) m hm)
      (fun j hj => hl j (List.mem_cons_of_mem _ hj))

/-- Every sorted map entry is a nonempty group of valid images keyed by their
common size. -/
theorem sortedEntries_prop (images : List Img) (hval : ∀ i ∈ images, ValidImg i) :
    ∀ e ∈ sortedEntries images,
      (∀ i ∈ e.2, 0 < i.width ∧ i.width < sprite_width) ∧ 0 < e.1.2 := by
  have hvs : ∀ i ∈ sortedImages images, ValidImg i := by
    intro i hi
    exact hval i ((List.perm_insertionSort _ _).mem_iff.mp hi)
  have hmap : MapProp ValidImg (build_images_map (sortedImages images)) :=
    build_images_map_prop ValidImg (sortedImages images) []
      (fun e he => absurd he (List.not_mem_nil e)) hvs
  intro e he
  have he' : e ∈ build_images_map (sortedImages images) :=
    (List.perm_insertionSort _ _).mem_iff.mp he
  obtain ⟨hne, hmem⟩ := hmap e he'
  refine ⟨fun i hi => ⟨(hmem i hi).1.1, (hmem i hi).1.2.1⟩, ?_⟩
  cases hl : e.2 with
  | nil => exact absurd hl hne
  | cons i l =>
    have hi := hmem i (by rw [hl]; exact List.mem_cons_self _ _)
    have hh : i.height = e.1.2 := by
      rw [← hi.2]
    rw [← hh]
    exact hi.1.2.2

/-- C6: for every valid input (positive sizes, widths strictly below
`sprite_width`), every emitted placement record's horizontal span
`[x, x + width)` lies within `[0, sprite_width)`, and any two records sharing
a vertical offset have disjoint horizontal spans. -/
theorem placements_within_width_and_disjoint (images : List Img)
    (hval : ∀ i ∈ images, ValidImg i) :
    (∀ r ∈ (resultOf images).css, SpanOk r) ∧
    (resultOf images).css.Pairwise RowDisj := by
  by_cases hne : images = []
  · subst hne
    have h0 : (resultOf []).css = [] := rfl
    rw [h0]
    exact ⟨fun r hr => absurd hr (List.not_mem_nil r), List.Pairwise.nil⟩
  · have hinv := foldl_packGroup_inv (sortedEntries images) ⟨[], [], 0⟩
      ⟨fun r hr => absurd hr (List.not_mem_nil r), List.Pairwise.nil,
        fun r hr => absurd hr (List.not_mem_nil r)⟩
      (sortedEntries_prop images hval)
    rw [resultOf_eq images hne]
    exact ⟨hinv.css_span, hinv.css_pair⟩

/-- C6 witness: the theorem at a two-image valid input. -/
theorem placements_within_width_and_disjoint_witness :
    (∀ r ∈ (resultOf [⟨"a", 100, 50⟩, ⟨"b", 700, 60⟩]).css, SpanOk r) ∧
    (resultOf [⟨"a", 100, 50⟩, ⟨"b", 700, 60⟩]).css.Pairwise RowDisj :=
  placements_within_width_and_disjoint [⟨"a", 100, 50⟩, ⟨"b", 700, 60⟩]
    (by decide)

/-- `charListLe` is total. -/
theorem charListLe_total : ∀ as bs : List Char,
    charListLe as bs = true ∨ charListLe bs as = true := by
  intro as
  induction as with
  | nil => intro bs; left; rfl
  | cons a as ih =>
    intro bs
    cases bs with
    | nil => right; rfl
    | cons b bs =>
      rcases lt_trichotomy a b with h | h | h
      · left
        simp [charListLe, h]
      · subst h
        rcases ih bs with h | h
        · left
          simp [charListLe, h]
        · right
          simp [charListLe, h]
      · right
        simp [charListLe, h]

/-- `charListLe` is transitive. -/
theorem charListLe_trans : ∀ as bs cs : List Char,
    charListLe as bs = true → charListLe bs cs = true → charListLe as cs = true := by
  intro as
  induction as with
  | nil => intro bs cs _ _; rfl
  | cons a as ih =>
    intro bs cs h1 h2
    cases bs with
    | nil => simp [charListLe] at h1
    | cons b bs =>
      cases cs with
      | nil => simp [charListLe] at h2
      | cons c cs =>
        rcases lt_trichotomy a b with hab | hab | hab
        · rcases lt_trichotomy b c with hbc | hbc | hbc
          · simp [charListLe, lt_trans hab hbc]
          · subst hbc
            simp [charListLe, hab]
          · rw [charListLe, if_neg (asymm hbc), if_pos hbc] at h2
            cases h2
        · subst hab
          rcases lt_trichotomy a c with hac | hac | hac
          · simp [charListLe, hac]
          · subst hac
            rw [charListLe, if_neg (lt_irrefl a), if_neg (lt_irrefl a)] at h1 h2 ⊢
            exact ih bs cs h1 h2
          · rw [charListLe, if_neg (asymm hac), if_pos hac] at h2
            cases h2
        · rw [charListLe, if_neg (asymm hab), if_pos hab] at h1
          cases h1

/-- `charListLe` both ways forces equality. -/
theorem charListLe_antisymm : ∀ as bs : List Char,
    charListLe as bs = true → charListLe bs as = true → as = bs := by
  intro as
  induction as with
  | nil =>
    intro bs _ h2
    cases bs with
    | nil => rfl
    | cons b bs => simp [charListLe] at h2
  | cons a as ih =>
    intro bs h1 h2
    cases bs with
    | nil => simp [charListLe] at h1
    | cons b bs =>
      rcases lt_trichotomy a b with hab | hab | hab
      · rw [charListLe, if_neg (asymm hab), if_pos hab] at h2
        cases h2
      · subst hab
        rw [charListLe, if_neg (lt_irrefl a), if_neg (lt_irrefl a)] at h1 h2
        rw [ih bs h1 h2]
      · rw [charListLe, if_neg (asymm hab), if_pos hab] at h1
        cases h1

/-- `strLe` both ways forces string equality. -/
theorem strLe_antisymm (a b : String) (h1 : strLe a b) (h2 : strLe b a) : a = b :=
  String.ext (charListLe_antisymm a.data b.data h1 h2)

instance : IsTotal Img (fun a b => strLe a.filename b.filename) :=
  ⟨fun a b => charListLe_total a.filename.data b.filename.data⟩

instance : IsTrans Img (fun a b => strLe a.filename b.filename) :=
  ⟨fun _ _ _ h1 h2 => charListLe_trans _ _ _ h1 h2⟩

instance : IsAntisymm Img
    (fun a b => strLe a.filename b.filename ∧ a.filename ≠ b.filename) :=
  ⟨fun _ _ h1 h2 => absurd (strLe_antisymm _ _ h1.1 h2.1) h1.2⟩

instance : IsTotal ((Nat × Nat) × List Img) (fun a b => a.1.2 ≤ b.1.2) :=
  ⟨fun a b => Nat.le_total a.1.2 b.1.2⟩

instance : IsTrans ((Nat × Nat) × List Img) (fun a b => a.1.2 ≤ b.1.2) :=
  ⟨fun _ _ _ h1 h2 => Nat.le_trans h1 h2⟩

/-- The identifier sort really sorts by identifier. -/
theorem sortedImages_sorted (l : List Img) :
    List.Sorted (fun a b => strLe a.filename b.filename) (sortedImages l) :=
  List.sorted_insertionSort _ l

/-- The identifier sort is a permutation of the input. -/
theorem sortedImages_perm (l : List Img) : (sortedImages l).Perm l :=
  List.perm_insertionSort _ l

/-- With pairwise-distinct identifiers, any two permutations of the same
images produce the same identifier-sorted list. -/
theorem sortedImages_eq_of_perm (l₁ l₂ : List Img)
    (hperm : l₁.Perm l₂) (hnd : (l₁.map Img.filename).Nodup) :
    sortedImages l₁ = sortedImages l₂ := by
  have hsymm : ∀ {x y : Img},
      x.filename ≠ y.filename → y.filename ≠ x.filename :=
    fun h e => h e.symm
  have hnd₂ : (l₂.map Img.filename).Nodup :=
    ((hperm.map Img.filename).nodup_iff).mp hnd
  have hpw₁ : List.Pairwise (fun a b : Img => a.filename ≠ b.filename) (sortedImages l₁) :=
    (List.Perm.pairwise_iff hsymm (sortedImages_perm l₁).symm).mp
      (List.pairwise_map.mp hnd)
  have hpw₂ : List.Pairwise (fun a b : Img => a.filename ≠ b.filename) (sortedImages l₂) :=
    (List.Perm.pairwise_iff hsymm (sortedImages_perm l₂).symm).mp
      (List.pairwise_map.mp hnd₂)
  refine List.eq_of_perm_of_sorted
    (r := fun a b => strLe a.filename b.filename ∧ a.filename ≠ b.filename)
    ((sortedImages_perm l₁).trans (hperm.trans (sortedImages_perm l₂).symm)) ?_ ?_
  · exact (sortedImages_sorted l₁).and hpw₁
  · exact (sortedImages_sorted l₂).and hpw₂

/-- Where an entry of `images_map_add m a` comes from: untouched, the entry
of `a`'s key with `a` appended, or the fresh entry for `a`. -/
theorem mem_images_map_add (a : Img) :
    ∀ m, ∀ e ∈ images_map_add m a,
      e ∈ m ∨ (∃ e0, e0 ∈ m ∧ e = (e0.1, e0.2 ++ [a])) ∨
        e = ((a.width, a.height), [a]) := by
  intro m
  induction m with
  | nil =>
    intro e he
    rw [images_map_add] at he
    right; right
    exact List.mem_singleton.mp he
  | cons kl rest ih =>
    intro e he
    obtain ⟨k, l⟩ := kl
    rw [images_map_add] at he
    by_cases hk : k = (a.width, a.height)
    · rw [if_pos hk] at he
      rcases List.mem_cons.mp he with rfl | he
      · right; left
        exact ⟨(k, l), List.mem_cons_self _ _, rfl⟩
      · left
        exact List.mem_cons_of_mem _ he
    · rw [if_neg hk] at he
      rcases List.mem_cons.mp he with rfl | he
      · left
        exact List.mem_cons_self _ _
      · rcases ih e he with h | ⟨e0, he0, rfl⟩ | h
        · left
          exact List.mem_cons_of_mem _ h
        · right; left
          exact ⟨e0, List.mem_cons_of_mem _ he0, rfl⟩
        · right; right
          exact h

/-- Folding an identifier-sorted list into the size map keeps every group
sorted by identifier: each image is appended after images that precede it in
the sorted input. -/
theorem groups_sorted_aux :
    ∀ (l : List Img) (m : List ((Nat × Nat) × List Img)),
      (∀ e ∈ m, e.2.Sorted (fun a b => strLe a.filename b.filename)) →
      (∀ e ∈ m, ∀ i ∈ e.2, ∀ j ∈ l, strLe i.filename j.filename) →
      List.Sorted (fun a b => strLe a.filename b.filename) l →
      ∀ e ∈ l.foldl images_map_add m,
        e.2.Sorted (fun a b => strLe a.filename b.filename) := by
  intro l
  induction l with
  | nil =>
    intro m hs _ _ e he
    exact hs e he
  | cons a rest ih =>
    intro m hs hb hsl e he
    refine ih (images_map_add m a) ?_ ?_ ((List.sorted_cons.mp hsl).2) e he
    · intro e' he'
      rcases mem_images_map_add a m e' he' with h | ⟨e0, he0, rfl⟩ | rfl
      · exact hs e' h
      · show (e0.2 ++ [a]).Sorted (fun a b => strLe a.filename b.filename)
        rw [List.Sorted, List.pairwise_append]
        refine ⟨hs e0 he0, List.pairwise_singleton _ _, ?_⟩
        intro i hi j hj
        rcases List.mem_singleton.mp hj with rfl
        exact hb e0 he0 i hi j (List.mem_cons_self _ _)
      · exact List.pairwise_singleton _ _
    · intro e' he' i hi j hj
      rcases mem_images_map_add a m e' he' with h | ⟨e0, he0, rfl⟩ | rfl
      · exact hb e' h i hi j (List.mem_cons_of_mem _ hj)
      · have hi' : i ∈ e0.2 ++ [a] := hi
        rcases List.mem_append.mp hi' with hi2 | hi2
        · exact hb e0 he0 i hi2 j (List.mem_cons_of_mem _ hj)
        · rcases List.mem_singleton.mp hi2 with rfl
          exact (List.sorted_cons.mp hsl).1 j hj
      · have hi' : i ∈ [a] := hi
        rcases List.mem_singleton.mp hi' with rfl
        exact (List.sorted_cons.mp hsl).1 j hj

/-- C8: shuffling the input does not change the output — for any permutation
of an input with pairwise-distinct identifiers, `spriteCreate` returns the
identical result (placement list, canvases, sprite image and sorted
stylesheet); moreover every group's images are ordered by identifier
ascending and the groups are traversed in height-ascending order. -/
theorem spriteCreate_perm_invariant (l₁ l₂ : List Img)
    (hperm : l₁.Perm l₂) (hnd : (l₁.map Img.filename).Nodup) :
    spriteCreate l₁ = spriteCreate l₂ ∧
    (∀ e ∈ sortedEntries l₁,
        e.2.Sorted (fun a b => strLe a.filename b.filename)) ∧
    (sortedEntries l₁).Sorted (fun a b => a.1.2 ≤ b.1.2) := by
  have hs := sortedImages_eq_of_perm l₁ l₂ hperm hnd
  refine ⟨?_, ?_, List.sorted_insertionSort _ _⟩
  · have hfin : finalSt l₁ = finalSt l₂ := by
      unfold finalSt sortedEntries
      rw [hs]
    by_cases h0 : l₁.length ≤ 0
    · have h0' : l₂.length ≤ 0 := by
        rw [← hperm.length_eq]
        exact h0
      rw [spriteCreate, spriteCreate, if_pos h0, if_pos h0']
    · have h0' : ¬ (l₂.length ≤ 0) := by
        rw [← hperm.length_eq]
        exact h0
      rw [spriteCreate, spriteCreate, if_neg h0, if_neg h0', hfin]
  · intro e he
    have he' : e ∈ build_images_map (sortedImages l₁) :=
      (List.perm_insertionSort _ _).mem_iff.mp he
    exact groups_sorted_aux (sortedImages l₁) []
      (fun e' he' => absurd he' (List.not_mem_nil e'))
      (fun e' he' => absurd he' (List.not_mem_nil e'))
      (sortedImages_sorted l₁) e he'

/-- C8 witness: swapping a two-image input leaves the output unchanged. -/
theorem spriteCreate_perm_invariant_witness :
    spriteCreate [⟨"b", 700, 50⟩, ⟨"a", 100, 50⟩] =
      spriteCreate [⟨"a", 100, 50⟩, ⟨"b", 700, 50⟩] ∧
    (∀ e ∈ sortedEntries [⟨"b", 700, 50⟩, ⟨"a", 100, 50⟩],
        e.2.Sorted (fun a b => strLe a.filename b.filename)) ∧
    (sortedEntries [⟨"b", 700, 50⟩, ⟨"a", 100, 50⟩]).Sorted
      (fun a b => a.1.2 ≤ b.1.2) :=
  spriteCreate_perm_invariant [⟨"b", 700, 50⟩, ⟨"a", 100, 50⟩]
    [⟨"a", 100, 50⟩, ⟨"b", 700, 50⟩]
    (List.Perm.swap _ _ _) (by decide)
